import Mathlib

/-
Verification of the llama.rs inference engine against its specification.

The Rust source is shallowly embedded: `f32`/`f64` values are modelled as
exact rationals (ℚ), and the transcendental primitives the code calls
(`exp`, `sqrt`, `sin_cos`, `powf`) are passed as abstract function
parameters, so every theorem holds for an arbitrary interpretation of
them.  `usize` is modelled as `Nat`; `i32` values are modelled as `Int`
with the Rust `as usize` cast made explicit.  Rust slices become `List`s;
in-place mutation becomes explicit value passing.  Slice reads inside the
hot loops (which panic when out of bounds in Rust) are modelled with
`List.getD`; the theorems carry the in-bounds hypotheses under which the
two semantics agree.
-/

namespace Llama

/-! ## ops.rs -/

/-- RMSNorm epsilon, `RMS_EPS` in ops.rs. -/
def RMS_EPS : ℚ := 1 / 100000

/-- Embedding of `rms_norm` from ops.rs.  The destination buffer always has
the same length as `src` at every call site, so the output is indexed by
`0..src.length`.  `sqrt` is the abstract square-root primitive. -/
def rms_norm (sqrt : ℚ → ℚ) (src weight : List ℚ) : List ℚ :=
  let n := src.length
  let ss := (src.map (fun v => v * v)).sum
  let inv := 1 / sqrt (ss / (n : ℚ) + RMS_EPS)
  (List.range src.length).map (fun i => weight.getD i 0 * (inv * src.getD i 0))

/-- Embedding of `matmul` from ops.rs: `xout[i] = Σ_j w[i*in_dim + j] * x[j]`.
The destination length `out_dim` is passed explicitly. -/
def matmul (out_dim : Nat) (x w : List ℚ) : List ℚ :=
  let in_dim := x.length
  (List.range out_dim).map (fun i =>
    ((List.range in_dim).map (fun j => w.getD (i * in_dim + j) 0 * x.getD j 0)).sum)

/-- Embedding of `accum` from ops.rs: `a += b` elementwise over the zipped
length; the tail of `a` beyond `b.length` is untouched. -/
def accum (a b : List ℚ) : List ℚ :=
  List.zipWith (fun ai bi => ai + bi) a b ++ a.drop b.length

/-- Embedding of `softmax` from ops.rs: empty input is returned unchanged,
otherwise subtract the maximum, exponentiate, and divide by the sum. -/
def softmax (exp : ℚ → ℚ) (x : List ℚ) : List ℚ :=
  match x with
  | [] => []
  | y :: ys =>
    let max_val := ys.foldl max y
    let e := (y :: ys).map (fun v => exp (v - max_val))
    let s := e.sum
    e.map (fun v => v / s)

/-- Embedding of `apply_rotary_emb` from ops.rs.  The Rust loop walks even
indices `i`, rotating the pair `(x[i], x[i+1])` by the angle
`pos * freq(i % head_size)`; output index `j` belongs to the pair starting
at `2*(j/2)`.  `sin`, `cos` and `powf` are the abstract primitives. -/
def apply_rotary_emb (sin cos : ℚ → ℚ) (powf : ℚ → ℚ → ℚ)
    (x : List ℚ) (pos : Int) (head_size : Nat) : List ℚ :=
  (List.range x.length).map (fun j =>
    let i := 2 * (j / 2)
    let head_dim : ℚ := ((i % head_size : Nat) : ℚ)
    let freq := 1 / powf 10000 (head_dim / (head_size : ℚ))
    let val := (pos : ℚ) * freq
    let fci := sin val
    let fcr := cos val
    let x0 := x.getD i 0
    let x1 := x.getD (i + 1) 0
    if j % 2 = 0 then x0 * fcr - x1 * fci else x0 * fci + x1 * fcr)

/-- Embedding of `swiglu` from ops.rs: `gate[i] = gate[i] * sigmoid(gate[i]) * up[i]`
over the zipped length, the tail of `gate` untouched. -/
def swiglu (exp : ℚ → ℚ) (gate up : List ℚ) : List ℚ :=
  List.zipWith (fun g u => g * (1 / (1 + exp (-g))) * u) gate up ++ gate.drop up.length

/-! ## sample.rs -/

/-- Probability/index pair, `ProbIndex` in sample.rs. -/
structure ProbIndex where
  prob : ℚ
  index : Nat
deriving Repr, DecidableEq

/-- Loop of `argmax` in sample.rs: scan with current best index and value,
replacing only on a strictly greater value. -/
def argmaxAux : List ℚ → Nat → Nat → ℚ → Nat
  | [], _, max_idx, _ => max_idx
  | v :: rest, i, max_idx, max_val =>
    if v > max_val then argmaxAux rest (i + 1) i v
    else argmaxAux rest (i + 1) max_idx max_val

/-- Embedding of `argmax` from sample.rs.  Rust reads `x[0]` and so panics on
an empty slice; the `0` returned for `[]` here is junk and every theorem
assumes a non-empty input. -/
def argmax (x : List ℚ) : Nat :=
  match x with
  | [] => 0
  | v :: rest => argmaxAux rest 1 0 v

/-- Standard multinomial walk of sample.rs: accumulate the CDF in index
order, return the first index whose cumulative mass exceeds `r`, falling
back to `last` (the last index) after the loop. -/
def cdfWalk : List ℚ → ℚ → ℚ → Nat → Nat → Nat
  | [], _, _, _, last => last
  | p :: rest, r, cdf, i, last =>
    let cdf' := cdf + p
    if r < cdf' then i else cdfWalk rest r cdf' (i + 1) last

/-- The `(prob, index)` list built from the probabilities by `enumerate` in
sample.rs. -/
def probIndexList (probs : List ℚ) : List ProbIndex :=
  (List.range probs.length).map (fun i => ⟨probs.getD i 0, i⟩)

/-- Stable descending insertion used to model `sort_by` with the comparator
`b.prob.partial_cmp(&a.prob)`: an element passes over strictly greater
probabilities and lands before the first less-or-equal one, preserving the
original order of equal probabilities as Rust's stable sort does. -/
def insertDesc (a : ProbIndex) : List ProbIndex → List ProbIndex
  | [] => [a]
  | b :: rest => if b.prob ≤ a.prob then a :: b :: rest else b :: insertDesc a rest

/-- Stable sort descending by probability, modelling `prob_index.sort_by`. -/
def sortDesc (l : List ProbIndex) : List ProbIndex := l.foldr insertDesc []

/-- Cutoff loop of top-p sampling: accumulate probabilities in sorted order,
stopping at the first position where the running mass exceeds `topp`;
returns the position (`last` if the loop runs out) and the accumulated
mass at exit. -/
def cutoffWalk : List ProbIndex → ℚ → ℚ → Nat → Nat → Nat × ℚ
  | [], _, cum, _, last => (last, cum)
  | p :: rest, topp, cum, i, last =>
    let cum' := cum + p.prob
    if cum' > topp then (i, cum') else cutoffWalk rest topp cum' (i + 1) last

/-- Final walk of top-p sampling over the truncated sorted list: return the
first index whose cumulative mass exceeds the rescaled draw, else the
fallback index. -/
def pickWalk : List ProbIndex → ℚ → ℚ → Nat → Nat
  | [], _, _, fallback => fallback
  | p :: rest, rs, cdf, fallback =>
    let cdf' := cdf + p.prob
    if rs < cdf' then p.index else pickWalk rest rs cdf' fallback

/-- Embedding of `sample` from sample.rs.  `exp` is the abstract exponential
used by `softmax`; `r` is the value drawn from the random source
(`rng.random()` in Rust).  The returned token id is a `Nat` (the Rust code
casts the `usize` index to `i32`). -/
def sample (exp : ℚ → ℚ) (logits : List ℚ) (temp topp r : ℚ) : Nat :=
  if temp = 0 then argmax logits
  else
    let scaled := logits.map (fun l => l / temp)
    let probs := softmax exp scaled
    if topp ≤ 0 ∨ topp ≥ 1 then
      cdfWalk probs r 0 0 (probs.length - 1)
    else
      let pi := sortDesc (probIndexList probs)
      let c := cutoffWalk pi topp 0 0 (pi.length - 1)
      let r_scaled := r * c.2
      pickWalk (pi.take (c.1 + 1)) r_scaled 0 (pi.getD c.1 ⟨0, 0⟩).index

/-! ## config.rs -/

/-- Embedding of `LlamaConfig` from config.rs; the seven header fields are
`i32` in Rust and are modelled as `Int`. -/
structure LlamaConfig where
  dim : Int
  hidden_dim : Int
  n_layers : Int
  n_heads : Int
  n_kv_heads : Int
  vocab_size : Int
  seq_len : Int
deriving Repr, DecidableEq

/-- Rust `as usize` cast of a (sign-extended) integer value: reinterpret
modulo 2^64. -/
def asUsize (v : Int) : Nat := (v % (2 ^ 64 : Int)).toNat

/-- Embedding of `LlamaConfig::kv_dim`: `((dim * n_kv_heads) / n_heads) as usize`
with Rust's truncating `i32` division. -/
def LlamaConfig.kv_dim (c : LlamaConfig) : Nat :=
  asUsize ((c.dim * c.n_kv_heads).tdiv c.n_heads)

/-- Embedding of `LlamaConfig.head_size`: `(dim / n_heads) as usize`. -/
def LlamaConfig.head_size (c : LlamaConfig) : Nat :=
  asUsize (c.dim.tdiv c.n_heads)

/-- Embedding of `LlamaConfig.group_size`: `(n_heads / n_kv_heads) as usize`. -/
def LlamaConfig.group_size (c : LlamaConfig) : Nat :=
  asUsize (c.n_heads.tdiv c.n_kv_heads)

/-! ## error.rs -/

/-- Embedding of `LlamaError` from error.rs.  The Rust `Io` variant wraps a
`std::io::Error`; its payload is irrelevant to the properties proved here
and is dropped. -/
inductive LlamaError where
  | Io : LlamaError
  | InvalidModel : String → LlamaError
  | Tokenizer : String → LlamaError
deriving Repr, DecidableEq

/-! ## weights.rs and model.rs: checkpoint loading

The checkpoint stream is a list of bytes (each a `Nat` below 256).  Every
read the loader performs is a 4-byte little-endian read: `read_i32` for the
header, `read_f32` for weight data.  Weight floats take part in no
arithmetic during loading, so they are kept as their raw 32-bit patterns
(`Nat`). -/

/-- Read one little-endian 32-bit word from the byte stream, returning the
word and the remaining stream, or `none` at end of stream. -/
def readU32 : List Nat → Option (Nat × List Nat)
  | b0 :: b1 :: b2 :: b3 :: rest =>
    some (b0 + 256 * (b1 + 256 * (b2 + 256 * b3)), rest)
  | _ => none

/-- Reinterpret a 32-bit word as a two's-complement `i32` value. -/
def toI32 (w : Nat) : Int :=
  if w < 2 ^ 31 then (w : Int) else (w : Int) - 2 ^ 32

/-- Embedding of `reader.read_i32::<LittleEndian>()`: end of stream is an IO
error. -/
def read_i32 (s : List Nat) : Except LlamaError (Int × List Nat) :=
  match readU32 s with
  | none => .error .Io
  | some (w, rest) => .ok (toI32 w, rest)

/-- Embedding of `read_f32_vec` from weights.rs: read `count` consecutive
32-bit floats (kept as raw words), propagating the IO error of the first
read past the end of the stream.  No element is zero-filled on failure:
the whole call fails. -/
def read_f32_vec : List Nat → Nat → Except LlamaError (List Nat × List Nat)
  | s, 0 => .ok ([], s)
  | s, n + 1 =>
    match readU32 s with
    | none => .error .Io
    | some (w, rest) =>
      match read_f32_vec rest n with
      | .error e => .error e
      | .ok (v, rest') => .ok (w :: v, rest')

/-- Weights of a single decoder layer, `LlamaLayerWeights` in weights.rs,
generic in the scalar type (raw words at load time, ℚ in the forward
pass). -/
structure LlamaLayerWeights (α : Type) where
  attn_norm : List α
  q_proj : List α
  k_proj : List α
  v_proj : List α
  o_proj : List α
  ffn_norm : List α
  gate_proj : List α
  up_proj : List α
  down_proj : List α
deriving Repr, DecidableEq

/-- All model parameters, `LlamaWeights` in weights.rs. -/
structure LlamaWeights (α : Type) where
  embed_tokens : List α
  layers : List (LlamaLayerWeights α)
  norm : List α
deriving Repr, DecidableEq

/-- Contiguous sub-list `l[off .. off+len)`, modelling a Rust subslice. -/
def seg {α : Type} (l : List α) (off len : Nat) : List α :=
  (l.drop off).take len

/-- Per-layer slicing loop of `LlamaWeights::load`: layer `l` receives the
slice `flat[l*size .. (l+1)*size]` of each flat buffer. -/
def buildLayers (dim hdim kv_dim : Nat)
    (rms_att_flat wq_flat wk_flat wv_flat wo_flat rms_ffn_flat gate_flat
      down_flat up_flat : List Nat) (n_layers : Nat) :
    List (LlamaLayerWeights Nat) :=
  (List.range n_layers).map (fun l =>
    { attn_norm := seg rms_att_flat (l * dim) dim
      q_proj := seg wq_flat (l * dim * dim) (dim * dim)
      k_proj := seg wk_flat (l * dim * kv_dim) (dim * kv_dim)
      v_proj := seg wv_flat (l * dim * kv_dim) (dim * kv_dim)
      o_proj := seg wo_flat (l * dim * dim) (dim * dim)
      ffn_norm := seg rms_ffn_flat (l * dim) dim
      gate_proj := seg gate_flat (l * hdim * dim) (hdim * dim)
      up_proj := seg up_flat (l * hdim * dim) (hdim * dim)
      down_proj := seg down_flat (l * dim * hdim) (dim * hdim) })

/-- Embedding of `LlamaWeights::load` from weights.rs: eleven sequential
`read_f32_vec` calls with Configuration-derived sizes, then pure slicing
into per-layer records. -/
def LlamaWeights.load (s : List Nat) (config : LlamaConfig) :
    Except LlamaError (LlamaWeights Nat × List Nat) := do
  let dim := asUsize config.dim
  let hdim := asUsize config.hidden_dim
  let n_layers := asUsize config.n_layers
  let vocab := asUsize config.vocab_size
  let kv_dim := config.kv_dim
  let (embed_tokens, s) ← read_f32_vec s (vocab * dim)
  let (rms_att_flat, s) ← read_f32_vec s (n_layers * dim)
  let (wq_flat, s) ← read_f32_vec s (n_layers * dim * dim)
  let (wk_flat, s) ← read_f32_vec s (n_layers * dim * kv_dim)
  let (wv_flat, s) ← read_f32_vec s (n_layers * dim * kv_dim)
  let (wo_flat, s) ← read_f32_vec s (n_layers * dim * dim)
  let (rms_ffn_flat, s) ← read_f32_vec s (n_layers * dim)
  let (gate_flat, s) ← read_f32_vec s (n_layers * hdim * dim)
  let (down_flat, s) ← read_f32_vec s (n_layers * dim * hdim)
  let (up_flat, s) ← read_f32_vec s (n_layers * hdim * dim)
  let (norm, s) ← read_f32_vec s dim
  let layers := buildLayers dim hdim kv_dim rms_att_flat wq_flat wk_flat
    wv_flat wo_flat rms_ffn_flat gate_flat down_flat up_flat n_layers
  .ok ({ embed_tokens := embed_tokens, layers := layers, norm := norm }, s)

/-- Header parse of `load_model` in model.rs: seven little-endian `i32`
reads, in the declared field order. -/
def parseHeader (s : List Nat) : Except LlamaError (LlamaConfig × List Nat) := do
  let (dim, s) ← read_i32 s
  let (hidden_dim, s) ← read_i32 s
  let (n_layers, s) ← read_i32 s
  let (n_heads, s) ← read_i32 s
  let (n_kv_heads, s) ← read_i32 s
  let (vocab_size, s) ← read_i32 s
  let (seq_len, s) ← read_i32 s
  .ok ({ dim := dim, hidden_dim := hidden_dim, n_layers := n_layers,
         n_heads := n_heads, n_kv_heads := n_kv_heads,
         vocab_size := vocab_size, seq_len := seq_len }, s)

/-- Embedding of `load_model` from model.rs over the checkpoint byte stream:
parse the seven-field header, then load the weights against it.  No
validation of the header values is performed by the source. -/
def load_model (s : List Nat) : Except LlamaError (LlamaConfig × LlamaWeights Nat) := do
  let (config, s) ← parseHeader s
  let (weights, _) ← LlamaWeights.load s config
  .ok (config, weights)

/-- Total number of floats the layout derived from a header demands, in the
read order of `LlamaWeights::load`. -/
def requiredFloats (config : LlamaConfig) : Nat :=
  let dim := asUsize config.dim
  let hdim := asUsize config.hidden_dim
  let n_layers := asUsize config.n_layers
  let vocab := asUsize config.vocab_size
  let kv_dim := config.kv_dim
  vocab * dim + n_layers * dim + n_layers * dim * dim +
    n_layers * dim * kv_dim + n_layers * dim * kv_dim +
    n_layers * dim * dim + n_layers * dim + n_layers * hdim * dim +
    n_layers * dim * hdim + n_layers * hdim * dim + dim

/-! ## state.rs -/

/-- Embedding of `LlamaState` from state.rs: scratch vectors plus per-layer
key/value caches. -/
structure LlamaState where
  x : List ℚ
  xb : List ℚ
  xb2 : List ℚ
  hb : List ℚ
  hb2 : List ℚ
  q : List ℚ
  k : List ℚ
  v : List ℚ
  att : List (List ℚ)
  logits : List ℚ
  key_cache : List (List ℚ)
  value_cache : List (List ℚ)
deriving Repr, DecidableEq

/-- Embedding of `LlamaState::new`: every buffer zero-initialised, caches
shaped `[n_layers][seq_len * kv_dim]`. -/
def LlamaState.new (config : LlamaConfig) : LlamaState :=
  let dim := asUsize config.dim
  let hdim := asUsize config.hidden_dim
  let n_heads := asUsize config.n_heads
  let n_layers := asUsize config.n_layers
  let seq_len := asUsize config.seq_len
  let kv_dim := config.kv_dim
  let vocab_size := asUsize config.vocab_size
  { x := List.replicate dim 0
    xb := List.replicate dim 0
    xb2 := List.replicate dim 0
    hb := List.replicate hdim 0
    hb2 := List.replicate hdim 0
    q := List.replicate dim 0
    k := List.replicate kv_dim 0
    v := List.replicate kv_dim 0
    att := (List.range n_heads).map (fun _ => List.replicate seq_len 0)
    logits := List.replicate vocab_size 0
    key_cache := (List.range n_layers).map (fun _ => List.replicate (seq_len * kv_dim) 0)
    value_cache := (List.range n_layers).map (fun _ => List.replicate (seq_len * kv_dim) 0) }

/-! ## model.rs: forward pass -/

/-- Abstract interpretations of the `f32` transcendental primitives the
forward pass calls; every theorem below holds for an arbitrary choice. -/
structure RealOps where
  exp : ℚ → ℚ
  sqrt : ℚ → ℚ
  sin : ℚ → ℚ
  cos : ℚ → ℚ
  powf : ℚ → ℚ → ℚ

/-- Overwrite `l[off .. off+v.length)` with `v`, modelling
`slice[off..off+len].copy_from_slice(&v)`. -/
def setSlice {α : Type} (l : List α) (off : Nat) (v : List α) : List α :=
  l.take off ++ v ++ l.drop (off + v.length)

/-- The key/value head owning query head `h`: `let kv_h = h / group_size` in
`attention` (model.rs). -/
def kvHead (group_size h : Nat) : Nat := h / group_size

/-- Score loop of the per-head attention body of `attention` in model.rs:
for every cached position `t = 0..pos`, the dot product of head `h`'s query
slice (`q[h*head_size ..]`) with the cached key slice at
`t*kv_dim + (h/group_size)*head_size`, divided by `sqrt(head_size)`. -/
def headScores (sqrt : ℚ → ℚ) (head_size kv_dim group_size pos h : Nat)
    (q kc : List ℚ) : List ℚ :=
  (List.range (pos + 1)).map (fun t =>
    let k_off := t * kv_dim + kvHead group_size h * head_size
    (((List.range head_size).map (fun i =>
      q.getD (h * head_size + i) 0 * kc.getD (k_off + i) 0)).sum) /
      sqrt ((head_size : ℚ)))

/-- Per-head attention body of `attention` in model.rs: softmax the scores
of `headScores`, then output the weighted sum of the cached value slices of
key/value head `h / group_size`.  `kc`/`vc` are layer `layer_idx`'s caches
after the position-`pos` write. -/
def headOut (exp sqrt : ℚ → ℚ) (head_size kv_dim group_size pos h : Nat)
    (q kc vc : List ℚ) : List ℚ :=
  let att := softmax exp (headScores sqrt head_size kv_dim group_size pos h q kc)
  (List.range head_size).map (fun i =>
    ((List.range (pos + 1)).map (fun t =>
      att.getD t 0 * vc.getD (t * kv_dim + kvHead group_size h * head_size + i) 0)).sum)

/-- Gather loop of `attention`: head `h`'s output is copied into
`xb[h*head_size .. (h+1)*head_size)`. -/
def scatterHeads (xb : List ℚ) (outs : List (List ℚ)) (head_size : Nat) : List ℚ :=
  (List.range outs.length).foldl
    (fun acc h => setSlice acc (h * head_size) (outs.getD h [])) xb

/-- Embedding of `attention` from model.rs for one layer at position `pos`
(a non-negative `i32` in Rust, hence a `Nat` here). -/
def attention (ops : RealOps) (layer_idx pos : Nat) (config : LlamaConfig)
    (st : LlamaState) (lw : LlamaLayerWeights ℚ) : LlamaState :=
  let dim := asUsize config.dim
  let n_heads := asUsize config.n_heads
  let head_size := config.head_size
  let kv_dim := config.kv_dim
  let group_size := config.group_size
  let xb := rms_norm ops.sqrt st.x lw.attn_norm
  let q := matmul dim xb lw.q_proj
  let k := matmul kv_dim xb lw.k_proj
  let v := matmul kv_dim xb lw.v_proj
  let q := apply_rotary_emb ops.sin ops.cos ops.powf q (pos : Int) head_size
  let k := apply_rotary_emb ops.sin ops.cos ops.powf k (pos : Int) head_size
  let cache_offset := pos * kv_dim
  let kc := setSlice (st.key_cache.getD layer_idx []) cache_offset k
  let vc := setSlice (st.value_cache.getD layer_idx []) cache_offset v
  let head_outputs := (List.range n_heads).map (fun h =>
    headOut ops.exp ops.sqrt head_size kv_dim group_size pos h q kc vc)
  let xb := scatterHeads xb head_outputs head_size
  let xb2 := matmul dim xb lw.o_proj
  { st with
    x := accum st.x xb2
    xb := xb
    xb2 := xb2
    q := q
    k := k
    v := v
    key_cache := st.key_cache.set layer_idx kc
    value_cache := st.value_cache.set layer_idx vc }

/-- Embedding of `mlp` from model.rs: RMSNorm, gate/up projections, SwiGLU,
down projection, residual add. -/
def mlp (ops : RealOps) (config : LlamaConfig) (st : LlamaState)
    (lw : LlamaLayerWeights ℚ) : LlamaState :=
  let dim := asUsize config.dim
  let hdim := asUsize config.hidden_dim
  let xb := rms_norm ops.sqrt st.x lw.ffn_norm
  let hb := matmul hdim xb lw.gate_proj
  let hb2 := matmul hdim xb lw.up_proj
  let hb := swiglu ops.exp hb hb2
  let xb := matmul dim hb lw.down_proj
  { st with
    x := accum st.x xb
    xb := xb
    hb := hb
    hb2 := hb2 }

/-- Decoder-layer loop of `forward`: `attention` then `mlp` for each layer
in order.  The Rust loop indexes `weights.layers[l]` for
`l = 0..n_layers`; for a loaded model that list has exactly `n_layers`
entries, so the loop is modelled as a walk over the layer list carrying
the layer index. -/
def runLayers (ops : RealOps) (config : LlamaConfig) (pos : Nat) :
    Nat → List (LlamaLayerWeights ℚ) → LlamaState → LlamaState
  | _, [], st => st
  | l, lw :: rest, st =>
    runLayers ops config pos (l + 1) rest (mlp ops config (attention ops l pos config st lw) lw)

/-- Embedding of `forward` from model.rs.  The embedding lookup slices
`embed_tokens[token*dim .. token*dim+dim]` with no bounds check of its
own; the Rust slice panics when that range leaves the matrix, modelled
here as the `none` branch. -/
def forward (ops : RealOps) (token pos : Nat) (config : LlamaConfig)
    (st : LlamaState) (weights : LlamaWeights ℚ) : Option LlamaState :=
  let dim := asUsize config.dim
  let emb_offset := token * dim
  if emb_offset + dim ≤ weights.embed_tokens.length then
    let st0 := { st with x := seg weights.embed_tokens emb_offset dim }
    let st1 := runLayers ops config pos 0 weights.layers st0
    let x := rms_norm ops.sqrt st1.x weights.norm
    let logits := matmul (asUsize config.vocab_size) x weights.embed_tokens
    some { st1 with x := x, logits := logits }
  else none

/-! ## tokenizer.rs -/

/-- The single-space string looked up as the dummy leading token of the
llama tokenizer. -/
def spaceStr : String := " "

/-- Default string used where Rust would index the vocabulary table. -/
def emptyStr : String := ""

/-- Error message of the missing-space `Tokenizer` error in `bpe_encode`. -/
def dummyMsg : String := "dummy space token not found in vocabulary"

/-- Tokens produced for one character of the input text: the vocabulary id
when the single-character string is present, otherwise one token
`byte + 3` per UTF-8 byte of the character. -/
def charTokens (vocab_map : String → Option Int) (c : Char) : List Int :=
  match vocab_map c.toString with
  | some id => [id]
  | none => c.toString.toUTF8.toList.map (fun b => (b.toNat : Int) + 3)

/-- One candidate step of the best-pair scan in `bpe_encode`: look up the
concatenation of tokens `i` and `i+1` in the vocabulary and keep it when
its score strictly beats the best so far.  The accumulator is
`none` before any candidate is found (the Rust loop starts from
`f32::NEG_INFINITY`, which every real score strictly exceeds). -/
def mergeCand (vocab : List String) (scores : List ℚ) (vocab_map : String → Option Int)
    (tokens : List Int) (best : Option (ℚ × Nat × Int)) (i : Nat) :
    Option (ℚ × Nat × Int) :=
  let merged := vocab.getD (asUsize (tokens.getD i 0)) emptyStr ++
    vocab.getD (asUsize (tokens.getD (i + 1) 0)) emptyStr
  match vocab_map merged with
  | none => best
  | some id =>
    let sc := scores.getD (asUsize id) 0
    match best with
    | none => some (sc, i, id)
    | some b => if sc > b.1 then some (sc, i, id) else some b

/-- Best-pair scan over `i = 0 .. tokens.length - 1` (exclusive), returning
`(best_score, best_idx, best_id)` or `none` when no adjacent pair merges. -/
def bestMerge (vocab : List String) (scores : List ℚ) (vocab_map : String → Option Int)
    (tokens : List Int) : Option (ℚ × Nat × Int) :=
  (List.range (tokens.length - 1)).foldl (mergeCand vocab scores vocab_map tokens) none

/-- One candidate step either keeps the accumulator or records the scanned
position `i` as the best index. -/
theorem mergeCand_cases (vocab : List String) (scores : List ℚ)
    (vocab_map : String → Option Int) (tokens : List Int)
    (best : Option (ℚ × Nat × Int)) (i : Nat) :
    mergeCand vocab scores vocab_map tokens best i = best ∨
      ∃ sc id, mergeCand vocab scores vocab_map tokens best i = some (sc, i, id) := by
  unfold mergeCand
  dsimp only
  split
  · exact Or.inl rfl
  · split
    · exact Or.inr ⟨_, _, rfl⟩
    · split
      · exact Or.inr ⟨_, _, rfl⟩
      · exact Or.inl rfl

/-- A successful best-pair scan always points inside the token list. -/
theorem bestMerge_idx_lt {vocab : List String} {scores : List ℚ}
    {vocab_map : String → Option Int} {tokens : List Int} {b : ℚ × Nat × Int}
    (h : bestMerge vocab scores vocab_map tokens = some b) :
    b.2.1 < tokens.length - 1 := by
  unfold bestMerge at h
  have key : ∀ (l : List Nat) (acc : Option (ℚ × Nat × Int)),
      (∀ i ∈ l, i < tokens.length - 1) →
      (∀ c, acc = some c → c.2.1 < tokens.length - 1) →
      ∀ c, l.foldl (mergeCand vocab scores vocab_map tokens) acc = some c →
        c.2.1 < tokens.length - 1 := by
    intro l
    induction l with
    | nil => intro acc _ hacc c hc; exact hacc c hc
    | cons i rest ih =>
      intro acc hmem hacc c hc
      refine ih _ (fun j hj => hmem j (List.mem_cons_of_mem _ hj)) ?_ c hc
      intro d hd
      rcases mergeCand_cases vocab scores vocab_map tokens acc i with hcase | ⟨sc, id, hcase⟩
      · exact hacc d (hcase ▸ hd)
      · rw [hcase] at hd
        have hi : i < tokens.length - 1 := hmem i (List.mem_cons_self _ _)
        cases hd
        exact hi
  refine key _ none (fun i hi => (List.mem_range).mp hi) (by simp) b h

/-- Merge loop of `bpe_encode`: repeatedly replace the best-scoring adjacent
pair `(tokens[idx], tokens[idx+1])` by the merged id until no pair is in
the vocabulary.  Terminates because each merge removes one token. -/
def mergeLoop (vocab : List String) (scores : List ℚ) (vocab_map : String → Option Int)
    (tokens : List Int) : List Int :=
  match h : bestMerge vocab scores vocab_map tokens with
  | none => tokens
  | some b => mergeLoop vocab scores vocab_map ((tokens.set b.2.1 b.2.2).eraseIdx (b.2.1 + 1))
termination_by tokens.length
decreasing_by
  have hlt := bestMerge_idx_lt h
  have h2 : b.2.1 + 1 < (tokens.set b.2.1 b.2.2).length := by
    simp only [List.length_set]; omega
  rw [List.length_eraseIdx, if_pos h2]
  simp only [List.length_set]
  omega

/-- Embedding of `bpe_encode` from tokenizer.rs: optional BOS id 1, the
dummy leading space token (looked up only when the text is non-empty, a
`Tokenizer` error when absent), per-character tokens with byte fallback,
the iterative best-pair merge, and the optional EOS id 2. -/
def bpe_encode (text : List Char) (vocab : List String) (scores : List ℚ)
    (vocab_map : String → Option Int) (bos eos : Bool) :
    Except LlamaError (List Int) := do
  let bosTok : List Int := if bos then [1] else []
  let pre : List Int ←
    match text with
    | [] => .ok []
    | _ :: _ =>
      match vocab_map spaceStr with
      | none => .error (LlamaError.Tokenizer dummyMsg)
      | some id => .ok [id]
  let charToks := text.flatMap (charTokens vocab_map)
  let merged := mergeLoop vocab scores vocab_map (bosTok ++ pre ++ charToks)
  .ok (merged ++ (if eos then [2] else []))

/-! ## Helper lemmas -/

theorem getD_range_map {α : Type} (f : Nat → α) (n i : Nat) (d : α) (h : i < n) :
    ((List.range n).map f).getD i d = f i := by
  rw [List.getD_eq_getElem?_getD, List.getElem?_map, List.getElem?_range h]
  rfl

theorem softmax_length (exp : ℚ → ℚ) (x : List ℚ) :
    (softmax exp x).length = x.length := by
  cases x <;> simp [softmax]

theorem getD_mem_or {α : Type} (l : List α) (i : Nat) (d : α) :
    l.getD i d ∈ l ∨ l.getD i d = d := by
  rw [List.getD_eq_getElem?_getD]
  cases h : l[i]? with
  | none => simp
  | some v =>
    left
    simpa using List.getElem?_mem h

theorem argmaxAux_spec (full : List ℚ) :
    ∀ (rest : List ℚ) (i mi : Nat) (mv : ℚ),
      rest = full.drop i → mi < i → mi < full.length → full.getD mi 0 = mv →
      (∀ j, j < i → full.getD j 0 ≤ mv) → (∀ j, j < mi → full.getD j 0 < mv) →
      argmaxAux rest i mi mv < full.length ∧
      (∀ j, j < full.length → full.getD j 0 ≤ full.getD (argmaxAux rest i mi mv) 0) ∧
      (∀ j, j < argmaxAux rest i mi mv → full.getD j 0 < full.getD (argmaxAux rest i mi mv) 0) := by
  intro rest
  induction rest with
  | nil =>
    intro i mi mv hdrop hmi hmif hval hle hlt
    have hlen : full.length ≤ i := by
      have := congrArg List.length hdrop
      simp only [List.length_drop, List.length_nil] at this
      omega
    simp only [argmaxAux]
    refine ⟨hmif, ?_, ?_⟩
    · intro j hj
      rw [hval]
      exact hle j (lt_of_lt_of_le hj hlen)
    · intro j hj
      rw [hval]
      exact hlt j hj
  | cons v rest' ih =>
    intro i mi mv hdrop hmi hmif hval hle hlt
    have hv : full[i]? = some v := by
      have h0 := List.getElem?_drop full i 0
      rw [← hdrop] at h0
      simpa using h0.symm
    have hiflen : i < full.length := by
      rcases List.getElem?_eq_some_iff.mp hv with ⟨h, _⟩
      exact h
    have hvd : full.getD i 0 = v := by
      rw [List.getD_eq_getElem?_getD, hv]
      rfl
    have hdrop' : rest' = full.drop (i + 1) := by
      have h1 := List.drop_drop 1 i full
      rw [← hdrop] at h1
      simpa [Nat.add_comm] using h1
    simp only [argmaxAux]
    split
    · rename_i hgt
      refine ih (i + 1) i v hdrop' (Nat.lt_succ_self i) hiflen hvd ?_ ?_
      · intro j hj
        rcases Nat.lt_succ_iff_lt_or_eq.mp hj with hj' | hj'
        · exact le_of_lt (lt_of_le_of_lt (hle j hj') hgt)
        · rw [hj', hvd]
      · intro j hj
        exact lt_of_le_of_lt (hle j hj) hgt
    · rename_i hng
      refine ih (i + 1) mi mv hdrop' (Nat.lt_succ_of_lt hmi) hmif hval ?_ hlt
      intro j hj
      rcases Nat.lt_succ_iff_lt_or_eq.mp hj with hj' | hj'
      · exact hle j hj'
      · rw [hj', hvd]
        exact le_of_not_lt hng

theorem argmax_spec (x : List ℚ) (h : x ≠ []) :
    argmax x < x.length ∧
    (∀ j, j < x.length → x.getD j 0 ≤ x.getD (argmax x) 0) ∧
    (∀ j, j < argmax x → x.getD j 0 < x.getD (argmax x) 0) := by
  match x, h with
  | v :: rest, _ =>
    have := argmaxAux_spec (v :: rest) rest 1 0 v rfl Nat.one_pos (by simp) rfl
      (fun j hj => by
        have hj0 : j = 0 := by omega
        subst hj0
        exact le_refl _)
      (fun j hj => absurd hj (Nat.not_lt_zero j))
    simpa [argmax] using this

theorem cdfWalk_lt :
    ∀ (l : List ℚ) (r cdf : ℚ) (i last n : Nat),
      i + l.length ≤ n → last < n → cdfWalk l r cdf i last < n := by
  intro l
  induction l with
  | nil =>
    intro r cdf i last n _ hlast
    simpa [cdfWalk] using hlast
  | cons p rest ih =>
    intro r cdf i last n hlen hlast
    simp only [cdfWalk]
    split
    · simp only [List.length_cons] at hlen
      omega
    · refine ih r (cdf + p) (i + 1) last n ?_ hlast
      simp only [List.length_cons] at hlen
      omega

theorem mem_insertDesc {a x : ProbIndex} :
    ∀ {l : List ProbIndex}, x ∈ insertDesc a l → x = a ∨ x ∈ l := by
  intro l
  induction l with
  | nil =>
    intro h
    simp only [insertDesc] at h
    simpa using h
  | cons b rest ih =>
    intro h
    simp only [insertDesc] at h
    split at h
    · rcases List.mem_cons.mp h with h1 | h2
      · exact Or.inl h1
      · exact Or.inr h2
    · rcases List.mem_cons.mp h with h1 | h2
      · exact Or.inr (h1 ▸ List.mem_cons_self _ _)
      · rcases ih h2 with h3 | h4
        · exact Or.inl h3
        · exact Or.inr (List.mem_cons_of_mem _ h4)

theorem mem_sortDesc {x : ProbIndex} :
    ∀ {l : List ProbIndex}, x ∈ sortDesc l → x ∈ l := by
  intro l
  induction l with
  | nil => simp [sortDesc]
  | cons b rest ih =>
    intro h
    have hrw : sortDesc (b :: rest) = insertDesc b (sortDesc rest) := rfl
    rw [hrw] at h
    rcases mem_insertDesc h with h1 | h2
    · exact h1 ▸ List.mem_cons_self _ _
    · exact List.mem_cons_of_mem _ (ih h2)

theorem index_lt_of_mem_probIndexList {probs : List ℚ} {x : ProbIndex}
    (h : x ∈ probIndexList probs) : x.index < probs.length := by
  unfold probIndexList at h
  rcases List.mem_map.mp h with ⟨i, hi, rfl⟩
  exact List.mem_range.mp hi

theorem pickWalk_lt {n : Nat} :
    ∀ (l : List ProbIndex) (rs cdf : ℚ) (fb : Nat),
      (∀ x ∈ l, x.index < n) → fb < n → pickWalk l rs cdf fb < n := by
  intro l
  induction l with
  | nil =>
    intro rs cdf fb _ hfb
    simpa [pickWalk] using hfb
  | cons p rest ih =>
    intro rs cdf fb hmem hfb
    simp only [pickWalk]
    split
    · exact hmem p (List.mem_cons_self _ _)
    · exact ih rs (cdf + p.prob) fb (fun x hx => hmem x (List.mem_cons_of_mem _ hx)) hfb

theorem matmul_length (out_dim : Nat) (x w : List ℚ) :
    (matmul out_dim x w).length = out_dim := by
  simp [matmul]

theorem apply_rotary_emb_length (sin cos : ℚ → ℚ) (powf : ℚ → ℚ → ℚ)
    (x : List ℚ) (pos : Int) (hs : Nat) :
    (apply_rotary_emb sin cos powf x pos hs).length = x.length := by
  simp [apply_rotary_emb]

theorem setSlice_length {α : Type} (l v : List α) (off : Nat)
    (h : off + v.length ≤ l.length) :
    (setSlice l off v).length = l.length := by
  simp only [setSlice, List.length_append, List.length_take, List.length_drop]
  omega

theorem setSlice_getD_lt {α : Type} (l v : List α) (off i : Nat) (d : α)
    (hi : i < off) (hoff : off ≤ l.length) :
    (setSlice l off v).getD i d = l.getD i d := by
  unfold setSlice
  rw [List.getD_eq_getElem?_getD, List.getD_eq_getElem?_getD, List.getElem?_append,
    if_pos (by simp only [List.length_append, List.length_take]; omega)]
  rw [List.getElem?_append, if_pos (by simp only [List.length_take]; omega)]
  rw [List.getElem?_take, if_pos hi]

theorem setSlice_getD_mid {α : Type} (l v : List α) (off j : Nat) (d : α)
    (hj : j < v.length) (hoff : off ≤ l.length) :
    (setSlice l off v).getD (off + j) d = v.getD j d := by
  unfold setSlice
  rw [List.getD_eq_getElem?_getD, List.getD_eq_getElem?_getD, List.getElem?_append,
    if_pos (by simp only [List.length_append, List.length_take]; omega)]
  rw [List.getElem?_append, if_neg (by simp only [List.length_take]; omega)]
  have hjj : off + j - (List.take off l).length = j := by
    simp only [List.length_take]
    omega
  rw [hjj]

theorem setSlice_getD_ge {α : Type} (l v : List α) (off i : Nat) (d : α)
    (hi : off + v.length ≤ i) (hoff : off ≤ l.length) :
    (setSlice l off v).getD i d = l.getD i d := by
  unfold setSlice
  rw [List.getD_eq_getElem?_getD, List.getD_eq_getElem?_getD, List.getElem?_append,
    if_neg (by simp only [List.length_append, List.length_take]; omega)]
  have h1 : i - (List.take off l ++ v).length = i - off - v.length := by
    simp only [List.length_append, List.length_take]
    omega
  rw [h1, List.getElem?_drop]
  have h2 : off + v.length + (i - off - v.length) = i := by omega
  rw [h2]

theorem headScores_congr (sqrt : ℚ → ℚ) (head_size kv_dim group_size pos h : Nat)
    (q kc1 kc2 : List ℚ)
    (hk : ∀ t, t ≤ pos → ∀ i, i < head_size →
      kc1.getD (t * kv_dim + kvHead group_size h * head_size + i) 0 =
        kc2.getD (t * kv_dim + kvHead group_size h * head_size + i) 0) :
    headScores sqrt head_size kv_dim group_size pos h q kc1 =
      headScores sqrt head_size kv_dim group_size pos h q kc2 := by
  unfold headScores
  apply List.map_congr_left
  intro t ht
  have ht' : t ≤ pos := by
    have := List.mem_range.mp ht
    omega
  dsimp only
  congr 1
  apply congrArg List.sum
  apply List.map_congr_left
  intro i hi
  rw [hk t ht' i (List.mem_range.mp hi)]

theorem headOut_congr (exp sqrt : ℚ → ℚ) (head_size kv_dim group_size pos h : Nat)
    (q kc1 vc1 kc2 vc2 : List ℚ)
    (hk : ∀ t, t ≤ pos → ∀ i, i < head_size →
      kc1.getD (t * kv_dim + kvHead group_size h * head_size + i) 0 =
        kc2.getD (t * kv_dim + kvHead group_size h * head_size + i) 0)
    (hv : ∀ t, t ≤ pos → ∀ i, i < head_size →
      vc1.getD (t * kv_dim + kvHead group_size h * head_size + i) 0 =
        vc2.getD (t * kv_dim + kvHead group_size h * head_size + i) 0) :
    headOut exp sqrt head_size kv_dim group_size pos h q kc1 vc1 =
      headOut exp sqrt head_size kv_dim group_size pos h q kc2 vc2 := by
  unfold headOut
  rw [headScores_congr sqrt head_size kv_dim group_size pos h q kc1 kc2 hk]
  apply List.map_congr_left
  intro i hi
  apply congrArg List.sum
  apply List.map_congr_left
  intro t ht
  rw [hv t (by have := List.mem_range.mp ht; omega) i (List.mem_range.mp hi)]

theorem getD_set_ne {α : Type} (l : List α) (i j : Nat) (a : α) (d : α) (h : i ≠ j) :
    (l.set i a).getD j d = l.getD j d := by
  rw [List.getD_eq_getElem?_getD, List.getD_eq_getElem?_getD, List.getElem?_set_ne h]

theorem getD_set_self {α : Type} (l : List α) (i : Nat) (a : α) (d : α)
    (h : i < l.length) :
    (l.set i a).getD i d = a := by
  rw [List.getD_eq_getElem?_getD, List.getElem?_set_self h]
  rfl

theorem setSlice_agree_below {α : Type} (c1 c2 v : List α) (off : Nat) (d : α)
    (h1 : off + v.length ≤ c1.length) (h2 : off + v.length ≤ c2.length)
    (hagree : ∀ i, i < off + v.length → c1.getD i d = c2.getD i d) :
    ∀ i, i < off + v.length →
      (setSlice c1 off v).getD i d = (setSlice c2 off v).getD i d := by
  intro i hi
  rcases Nat.lt_or_ge i off with hlt | hge
  · rw [setSlice_getD_lt _ _ _ _ _ hlt (by omega), setSlice_getD_lt _ _ _ _ _ hlt (by omega)]
    exact hagree i hi
  · have hieq : i = off + (i - off) := by omega
    rw [hieq, setSlice_getD_mid _ _ _ _ _ (by omega) (by omega),
      setSlice_getD_mid _ _ _ _ _ (by omega) (by omega)]

theorem cache_write_agree (c1 c2 k : List ℚ) (kv_dim head_size pos group_size h : Nat)
    (hkd : k.length = kv_dim)
    (hl1 : (pos + 1) * kv_dim ≤ c1.length) (hl2 : (pos + 1) * kv_dim ≤ c2.length)
    (hagree : ∀ i, i < (pos + 1) * kv_dim → c1.getD i 0 = c2.getD i 0)
    (hrow : (kvHead group_size h + 1) * head_size ≤ kv_dim) :
    ∀ t, t ≤ pos → ∀ i, i < head_size →
      (setSlice c1 (pos * kv_dim) k).getD
          (t * kv_dim + kvHead group_size h * head_size + i) 0 =
        (setSlice c2 (pos * kv_dim) k).getD
          (t * kv_dim + kvHead group_size h * head_size + i) 0 := by
  intro t ht i hi
  have hmul : t * kv_dim ≤ pos * kv_dim := Nat.mul_le_mul_right _ ht
  have hexp : (kvHead group_size h + 1) * head_size =
      kvHead group_size h * head_size + head_size := by ring
  have hpo : (pos + 1) * kv_dim = pos * kv_dim + kv_dim := by ring
  have hidx : t * kv_dim + kvHead group_size h * head_size + i < (pos + 1) * kv_dim := by
    omega
  exact setSlice_agree_below c1 c2 k (pos * kv_dim) 0 (by omega) (by omega)
    (fun j hj => hagree j (by omega)) _ (by omega)

theorem attention_key_cache_eq (ops : RealOps) (layer_idx pos : Nat)
    (config : LlamaConfig) (st : LlamaState) (lw : LlamaLayerWeights ℚ) :
    (attention ops layer_idx pos config st lw).key_cache =
      st.key_cache.set layer_idx
        (setSlice (st.key_cache.getD layer_idx []) (pos * config.kv_dim)
          (apply_rotary_emb ops.sin ops.cos ops.powf
            (matmul config.kv_dim (rms_norm ops.sqrt st.x lw.attn_norm) lw.k_proj)
            (pos : Int) config.head_size)) := rfl

theorem attention_value_cache_eq (ops : RealOps) (layer_idx pos : Nat)
    (config : LlamaConfig) (st : LlamaState) (lw : LlamaLayerWeights ℚ) :
    (attention ops layer_idx pos config st lw).value_cache =
      st.value_cache.set layer_idx
        (setSlice (st.value_cache.getD layer_idx []) (pos * config.kv_dim)
          (matmul config.kv_dim (rms_norm ops.sqrt st.x lw.attn_norm) lw.v_proj)) := rfl

theorem runLayers_cache_frame (ops : RealOps) (config : LlamaConfig) (pos : Nat) :
    ∀ (lws : List (LlamaLayerWeights ℚ)) (l0 : Nat) (st : LlamaState),
      l0 + lws.length ≤ st.key_cache.length →
      l0 + lws.length ≤ st.value_cache.length →
      ((runLayers ops config pos l0 lws st).key_cache.length = st.key_cache.length ∧
        (runLayers ops config pos l0 lws st).value_cache.length = st.value_cache.length) ∧
      (∀ r, r < l0 ∨ l0 + lws.length ≤ r →
        (runLayers ops config pos l0 lws st).key_cache.getD r [] =
          st.key_cache.getD r [] ∧
        (runLayers ops config pos l0 lws st).value_cache.getD r [] =
          st.value_cache.getD r []) ∧
      (∀ r, l0 ≤ r → r < l0 + lws.length →
        ∃ kv vv, kv.length = config.kv_dim ∧ vv.length = config.kv_dim ∧
          (runLayers ops config pos l0 lws st).key_cache.getD r [] =
            setSlice (st.key_cache.getD r []) (pos * config.kv_dim) kv ∧
          (runLayers ops config pos l0 lws st).value_cache.getD r [] =
            setSlice (st.value_cache.getD r []) (pos * config.kv_dim) vv) := by
  intro lws
  induction lws with
  | nil =>
    intro l0 st _ _
    refine ⟨⟨rfl, rfl⟩, fun r _ => ⟨rfl, rfl⟩, fun r hr1 hr2 => ?_⟩
    simp only [List.length_nil] at hr2
    omega
  | cons lw rest ih =>
    intro l0 st hk hv
    simp only [List.length_cons] at hk hv
    have hkeq := attention_key_cache_eq ops l0 pos config st lw
    have hveq := attention_value_cache_eq ops l0 pos config st lw
    have hst1k : (mlp ops config (attention ops l0 pos config st lw) lw).key_cache =
        (attention ops l0 pos config st lw).key_cache := rfl
    have hst1v : (mlp ops config (attention ops l0 pos config st lw) lw).value_cache =
        (attention ops l0 pos config st lw).value_cache := rfl
    have hrun : runLayers ops config pos l0 (lw :: rest) st =
        runLayers ops config pos (l0 + 1) rest
          (mlp ops config (attention ops l0 pos config st lw) lw) := rfl
    set st1 := mlp ops config (attention ops l0 pos config st lw) lw with hst1
    have hst1klen : st1.key_cache.length = st.key_cache.length := by
      rw [hst1k, hkeq, List.length_set]
    have hst1vlen : st1.value_cache.length = st.value_cache.length := by
      rw [hst1v, hveq, List.length_set]
    obtain ⟨⟨ihlk, ihlv⟩, ihout, ihin⟩ := ih (l0 + 1) st1
      (by rw [hst1klen]; omega) (by rw [hst1vlen]; omega)
    rw [hrun]
    refine ⟨⟨by rw [ihlk, hst1klen], by rw [ihlv, hst1vlen]⟩, ?_, ?_⟩
    · intro r hr
      have hro : r < l0 + 1 ∨ l0 + 1 + rest.length ≤ r := by
        rcases hr with h1 | h1
        · left; omega
        · right; simp only [List.length_cons] at h1; omega
      obtain ⟨ihk, ihv⟩ := ihout r hro
      have hrne : r ≠ l0 := by
        rcases hr with h1 | h1
        · omega
        · simp only [List.length_cons] at h1; omega
      constructor
      · rw [ihk, hst1k, hkeq, getD_set_ne _ _ _ _ _ (fun he => hrne he.symm)]
      · rw [ihv, hst1v, hveq, getD_set_ne _ _ _ _ _ (fun he => hrne he.symm)]
    · intro r hr1 hr2
      simp only [List.length_cons] at hr2
      rcases Nat.eq_or_lt_of_le hr1 with rfl | hlt
      · obtain ⟨ihk, ihv⟩ := ihout l0 (Or.inl (by omega))
        refine ⟨apply_rotary_emb ops.sin ops.cos ops.powf
            (matmul config.kv_dim (rms_norm ops.sqrt st.x lw.attn_norm) lw.k_proj)
            (pos : Int) config.head_size,
          matmul config.kv_dim (rms_norm ops.sqrt st.x lw.attn_norm) lw.v_proj,
          ?_, ?_, ?_, ?_⟩
        · rw [apply_rotary_emb_length, matmul_length]
        · rw [matmul_length]
        · rw [ihk, hst1k, hkeq, getD_set_self]
          omega
        · rw [ihv, hst1v, hveq, getD_set_self]
          omega
      · obtain ⟨kv, vv, hkvl, hvvl, hkeq2, hveq2⟩ := ihin r (by omega) (by omega)
        refine ⟨kv, vv, hkvl, hvvl, ?_, ?_⟩
        · rw [hkeq2, hst1k, hkeq, getD_set_ne _ _ _ _ _ (by omega)]
        · rw [hveq2, hst1v, hveq, getD_set_ne _ _ _ _ _ (by omega)]

theorem except_bind_ok {ε α β : Type} (a : α) (f : α → Except ε β) :
    (Except.ok a >>= f : Except ε β) = f a := rfl

theorem read_f32_vec_ok : ∀ (n : Nat) (s : List Nat), 4 * n ≤ s.length →
    ∃ v rest, read_f32_vec s n = .ok (v, rest) ∧ v.length = n ∧
      rest.length = s.length - 4 * n := by
  intro n
  induction n with
  | zero =>
    intro s _
    exact ⟨[], s, rfl, rfl, by omega⟩
  | succ m ih =>
    intro s h
    match s with
    | [] => simp only [List.length_nil] at h; omega
    | [b0] => simp only [List.length_cons, List.length_nil] at h; omega
    | [b0, b1] => simp only [List.length_cons, List.length_nil] at h; omega
    | [b0, b1, b2] => simp only [List.length_cons, List.length_nil] at h; omega
    | b0 :: b1 :: b2 :: b3 :: rest =>
      have h4 : 4 * m ≤ rest.length := by
        simp only [List.length_cons] at h
        omega
      obtain ⟨v, r, heq, hvl, hrl⟩ := ih rest h4
      refine ⟨(b0 + 256 * (b1 + 256 * (b2 + 256 * b3))) :: v, r, ?_, ?_, ?_⟩
      · simp only [read_f32_vec, readU32, heq]
      · simp [hvl]
      · simp only [List.length_cons] at *
        omega

theorem read_f32_vec_err : ∀ (n : Nat) (s : List Nat), s.length < 4 * n →
    read_f32_vec s n = .error .Io := by
  intro n
  induction n with
  | zero => intro s h; omega
  | succ m ih =>
    intro s h
    match s with
    | [] => rfl
    | [b0] => rfl
    | [b0, b1] => rfl
    | [b0, b1, b2] => rfl
    | b0 :: b1 :: b2 :: b3 :: rest =>
      have hr : rest.length < 4 * m := by
        simp only [List.length_cons] at h
        omega
      simp only [read_f32_vec, readU32, ih rest hr]

theorem load_ok (s : List Nat) (cfg : LlamaConfig)
    (h : 4 * requiredFloats cfg ≤ s.length) :
    ∃ w rest, LlamaWeights.load s cfg = .ok (w, rest) := by
  simp only [requiredFloats] at h
  generalize hD : asUsize cfg.dim = D at h
  generalize hH : asUsize cfg.hidden_dim = H at h
  generalize hL : asUsize cfg.n_layers = L at h
  generalize hV : asUsize cfg.vocab_size = V at h
  generalize hK : cfg.kv_dim = K at h
  have b1 : 4 * (V * D) ≤ s.length := by omega
  obtain ⟨v1, r1, e1, _, l1⟩ := read_f32_vec_ok _ s b1
  have b2 : 4 * (L * D) ≤ r1.length := by omega
  obtain ⟨v2, r2, e2, _, l2⟩ := read_f32_vec_ok _ r1 b2
  have b3 : 4 * (L * D * D) ≤ r2.length := by omega
  obtain ⟨v3, r3, e3, _, l3⟩ := read_f32_vec_ok _ r2 b3
  have b4 : 4 * (L * D * K) ≤ r3.length := by omega
  obtain ⟨v4, r4, e4, _, l4⟩ := read_f32_vec_ok _ r3 b4
  have b5 : 4 * (L * D * K) ≤ r4.length := by omega
  obtain ⟨v5, r5, e5, _, l5⟩ := read_f32_vec_ok _ r4 b5
  have b6 : 4 * (L * D * D) ≤ r5.length := by omega
  obtain ⟨v6, r6, e6, _, l6⟩ := read_f32_vec_ok _ r5 b6
  have b7 : 4 * (L * D) ≤ r6.length := by omega
  obtain ⟨v7, r7, e7, _, l7⟩ := read_f32_vec_ok _ r6 b7
  have b8 : 4 * (L * H * D) ≤ r7.length := by omega
  obtain ⟨v8, r8, e8, _, l8⟩ := read_f32_vec_ok _ r7 b8
  have b9 : 4 * (L * D * H) ≤ r8.length := by omega
  obtain ⟨v9, r9, e9, _, l9⟩ := read_f32_vec_ok _ r8 b9
  have b10 : 4 * (L * H * D) ≤ r9.length := by omega
  obtain ⟨v10, r10, e10, _, l10⟩ := read_f32_vec_ok _ r9 b10
  have b11 : 4 * D ≤ r10.length := by omega
  obtain ⟨v11, r11, e11, _, l11⟩ := read_f32_vec_ok _ r10 b11
  refine ⟨⟨v1, buildLayers D H K v2 v3 v4 v5 v6 v7 v8 v9 v10 L, v11⟩, r11, ?_⟩
  simp only [LlamaWeights.load]
  rw [hD, hH, hL, hV, hK]
  simp only [e1, e2, e3, e4, e5, e6, e7, e8, e9, e10, e11, except_bind_ok]

theorem load_err (s : List Nat) (cfg : LlamaConfig)
    (h : s.length < 4 * requiredFloats cfg) :
    LlamaWeights.load s cfg = .error .Io := by
  simp only [requiredFloats] at h
  generalize hD : asUsize cfg.dim = D at h
  generalize hH : asUsize cfg.hidden_dim = H at h
  generalize hL : asUsize cfg.n_layers = L at h
  generalize hV : asUsize cfg.vocab_size = V at h
  generalize hK : cfg.kv_dim = K at h
  simp only [LlamaWeights.load]
  rw [hD, hH, hL, hV, hK]
  rcases Nat.lt_or_ge s.length (4 * (V * D)) with c1 | c1
  · rw [read_f32_vec_err _ _ c1]
    rfl
  · obtain ⟨v1, r1, e1, _, l1⟩ := read_f32_vec_ok _ s c1
    simp only [e1, except_bind_ok]
    rcases Nat.lt_or_ge r1.length (4 * (L * D)) with c2 | c2
    · rw [read_f32_vec_err _ _ c2]
      rfl
    · obtain ⟨v2, r2, e2, _, l2⟩ := read_f32_vec_ok _ r1 c2
      simp only [e2, except_bind_ok]
      rcases Nat.lt_or_ge r2.length (4 * (L * D * D)) with c3 | c3
      · rw [read_f32_vec_err _ _ c3]
        rfl
      · obtain ⟨v3, r3, e3, _, l3⟩ := read_f32_vec_ok _ r2 c3
        simp only [e3, except_bind_ok]
        rcases Nat.lt_or_ge r3.length (4 * (L * D * K)) with c4 | c4
        · rw [read_f32_vec_err _ _ c4]
          rfl
        · obtain ⟨v4, r4, e4, _, l4⟩ := read_f32_vec_ok _ r3 c4
          simp only [e4, except_bind_ok]
          rcases Nat.lt_or_ge r4.length (4 * (L * D * K)) with c5 | c5
          · rw [read_f32_vec_err _ _ c5]
            rfl
          · obtain ⟨v5, r5, e5, _, l5⟩ := read_f32_vec_ok _ r4 c5
            simp only [e5, except_bind_ok]
            rcases Nat.lt_or_ge r5.length (4 * (L * D * D)) with c6 | c6
            · rw [read_f32_vec_err _ _ c6]
              rfl
            · obtain ⟨v6, r6, e6, _, l6⟩ := read_f32_vec_ok _ r5 c6
              simp only [e6, except_bind_ok]
              rcases Nat.lt_or_ge r6.length (4 * (L * D)) with c7 | c7
              · rw [read_f32_vec_err _ _ c7]
                rfl
              · obtain ⟨v7, r7, e7, _, l7⟩ := read_f32_vec_ok _ r6 c7
                simp only [e7, except_bind_ok]
                rcases Nat.lt_or_ge r7.length (4 * (L * H * D)) with c8 | c8
                · rw [read_f32_vec_err _ _ c8]
                  rfl
                · obtain ⟨v8, r8, e8, _, l8⟩ := read_f32_vec_ok _ r7 c8
                  simp only [e8, except_bind_ok]
                  rcases Nat.lt_or_ge r8.length (4 * (L * D * H)) with c9 | c9
                  · rw [read_f32_vec_err _ _ c9]
                    rfl
                  · obtain ⟨v9, r9, e9, _, l9⟩ := read_f32_vec_ok _ r8 c9
                    simp only [e9, except_bind_ok]
                    rcases Nat.lt_or_ge r9.length (4 * (L * H * D)) with c10 | c10
                    · rw [read_f32_vec_err _ _ c10]
                      rfl
                    · obtain ⟨v10, r10, e10, _, l10⟩ := read_f32_vec_ok _ r9 c10
                      simp only [e10, except_bind_ok]
                      rcases Nat.lt_or_ge r10.length (4 * D) with c11 | c11
                      · rw [read_f32_vec_err _ _ c11]
                        rfl
                      · obtain ⟨v11, r11, e11, _, l11⟩ := read_f32_vec_ok _ r10 c11
                        simp only [e11, except_bind_ok]
                        omega

theorem except_bind_err {ε α β : Type} (e : ε) (f : α → Except ε β) :
    (Except.error e >>= f : Except ε β) = .error e := rfl

/-- Zero interpretation of the transcendental primitives, used by concrete
witnesses (every theorem quantifies over the interpretation). -/
def opsZ : RealOps := ⟨fun _ => 0, fun _ => 0, fun _ => 0, fun _ => 0, fun _ _ => 0⟩

/-- Concrete single-head configuration for the causality witness
(`dim=1`, one layer, one head, `seq_len=2`, so `kv_dim=1`). -/
def c7cfg : LlamaConfig := ⟨1, 1, 1, 1, 1, 1, 2⟩

/-- Concrete layer weights for the causality witness. -/
def c7lw : LlamaLayerWeights ℚ := ⟨[1], [1], [1], [1], [1], [1], [1], [1], [1]⟩

/-- First state of the causality witness: caches agree with `c7st2` at
position 0 and differ at position 1. -/
def c7st1 : LlamaState :=
  ⟨[1], [0], [0], [0], [0], [0], [0], [0], [[0, 0]], [0], [[5, 7]], [[6, 8]]⟩

/-- Second state of the causality witness. -/
def c7st2 : LlamaState :=
  ⟨[1], [0], [0], [0], [0], [0], [0], [0], [[0, 0]], [0], [[5, 9]], [[6, 4]]⟩

/-- Concrete minimal configuration of the frame-effect witness. -/
def c8cfg : LlamaConfig := ⟨1, 1, 1, 1, 1, 1, 1⟩

/-- Concrete layer weights of the frame-effect witness. -/
def c8lw : LlamaLayerWeights ℚ := ⟨[0], [0], [0], [0], [0], [0], [0], [0], [0]⟩

/-- Concrete model weights of the frame-effect witness. -/
def c8w : LlamaWeights ℚ := ⟨[0], [c8lw], [0]⟩

/-- Concrete initial state of the frame-effect witness. -/
def c8st : LlamaState := LlamaState.new c8cfg

/-- The state the frame-effect witness's forward call produces. -/
def c8res : LlamaState := (forward opsZ 0 0 c8cfg c8st c8w).getD c8st

/-- The header of the concrete checkpoint streams used below:
`dim=3, hidden_dim=1, n_layers=1, n_heads=3, n_kv_heads=2, vocab_size=1,
seq_len=1`, so `n_heads % n_kv_heads = 1 ≠ 0` and the derived layout holds
`requiredFloats = 51` floats. -/
def headerBytesC : List Nat :=
  [3, 0, 0, 0, 1, 0, 0, 0, 1, 0, 0, 0, 3, 0, 0, 0, 2, 0, 0, 0, 1, 0, 0, 0, 1, 0, 0, 0]

/-- The configuration those header bytes parse to. -/
def cfgC : LlamaConfig := ⟨3, 1, 1, 3, 2, 1, 1⟩

/-! ## Claim theorems -/

/-- C3: the sampler is total: for every non-empty logits vector, every
temperature, top-p and random draw, and every interpretation of the
exponential, `sample` returns an index in `[0, vocab_size)` (where
`vocab_size` is the logits length) through each of its three branches, with
no error path. -/
theorem sample_total_in_range (exp : ℚ → ℚ) (logits : List ℚ) (temp topp r : ℚ)
    (h : logits ≠ []) :
    sample exp logits temp topp r < logits.length := by
  have hlen0 : 0 < logits.length := List.length_pos.mpr h
  unfold sample
  split
  · exact (argmax_spec logits h).1
  · have hslen : (softmax exp (logits.map (fun l => l / temp))).length = logits.length := by
      rw [softmax_length, List.length_map]
    split
    · exact cdfWalk_lt _ r 0 0 _ _ (by omega) (by omega)
    · have hmem : ∀ x ∈ sortDesc (probIndexList (softmax exp (logits.map (fun l => l / temp)))),
          x.index < logits.length := by
        intro x hx
        have := index_lt_of_mem_probIndexList (mem_sortDesc hx)
        omega
      refine pickWalk_lt _ _ _ _ ?_ ?_
      · intro x hx
        exact hmem x (List.mem_of_mem_take hx)
      · rcases getD_mem_or (sortDesc (probIndexList (softmax exp (logits.map (fun l => l / temp)))))
          (cutoffWalk (sortDesc (probIndexList (softmax exp (logits.map (fun l => l / temp))))) topp 0 0
            ((sortDesc (probIndexList (softmax exp (logits.map (fun l => l / temp))))).length - 1)).1
          ⟨0, 0⟩ with hm | hd
        · exact hmem _ hm
        · rw [hd]
          exact hlen0

/-- Witness for C3: the theorem applied at a concrete nucleus-branch input. -/
theorem sample_total_in_range_witness :
    (([(1 : ℚ), 2] : List ℚ) ≠ []) ∧
    sample (fun q => q) [1, 2] 1 (1 / 2) (1 / 3) < ([(1 : ℚ), 2] : List ℚ).length :=
  ⟨by decide, sample_total_in_range (fun q => q) [1, 2] 1 (1 / 2) (1 / 3) (by decide)⟩

/-- C5: with temperature 0, `sample` returns the argmax index regardless of
the random source and of top-p: the result equals `argmax`, which is an
in-range index holding the maximum logit, with every earlier index holding
a strictly smaller logit (first occurrence on ties). -/
theorem sample_greedy_argmax (exp : ℚ → ℚ) (logits : List ℚ) (topp r : ℚ)
    (h : logits ≠ []) :
    sample exp logits 0 topp r = argmax logits ∧
    argmax logits < logits.length ∧
    (∀ j, j < logits.length → logits.getD j 0 ≤ logits.getD (argmax logits) 0) ∧
    (∀ j, j < argmax logits → logits.getD j 0 < logits.getD (argmax logits) 0) := by
  exact ⟨by simp [sample], (argmax_spec logits h).1, (argmax_spec logits h).2.1,
    (argmax_spec logits h).2.2⟩

/-- Witness for C5: the spec example logits `[0.1, 5.0, 0.3]` yield index 1
under greedy sampling, with an arbitrary random draw and top-p. -/
theorem sample_greedy_argmax_witness :
    (([(1 : ℚ) / 10, 5, 3 / 10] : List ℚ) ≠ []) ∧
    (sample (fun q => q) [1 / 10, 5, 3 / 10] 0 (9 / 10) (1 / 2) =
        argmax [1 / 10, 5, 3 / 10] ∧
      argmax [(1 : ℚ) / 10, 5, 3 / 10] < ([(1 : ℚ) / 10, 5, 3 / 10] : List ℚ).length ∧
      (∀ j, j < ([(1 : ℚ) / 10, 5, 3 / 10] : List ℚ).length →
        ([(1 : ℚ) / 10, 5, 3 / 10] : List ℚ).getD j 0 ≤
          ([(1 : ℚ) / 10, 5, 3 / 10] : List ℚ).getD (argmax [1 / 10, 5, 3 / 10]) 0) ∧
      (∀ j, j < argmax [(1 : ℚ) / 10, 5, 3 / 10] →
        ([(1 : ℚ) / 10, 5, 3 / 10] : List ℚ).getD j 0 <
          ([(1 : ℚ) / 10, 5, 3 / 10] : List ℚ).getD (argmax [1 / 10, 5, 3 / 10]) 0)) ∧
    argmax [(1 : ℚ) / 10, 5, 3 / 10] = 1 :=
  ⟨by decide,
    sample_greedy_argmax (fun q => q) [1 / 10, 5, 3 / 10] (9 / 10) (1 / 2) (by decide),
    by norm_num [argmax, argmaxAux]⟩

/-- C4: RMSNorm matches the reference definition: every output entry equals
`w_i * x_i / sqrt(mean(x_j^2) + 1e-5)` for any interpretation of the square
root, and an all-zero input yields an all-zero output. -/
theorem rms_norm_reference (sqrt : ℚ → ℚ) (x w : List ℚ) (_hx : x ≠ [])
    (_hw : w.length = x.length) (i : Nat) (hi : i < x.length) :
    (rms_norm sqrt x w).getD i 0 =
      w.getD i 0 * x.getD i 0 /
        sqrt ((x.map (fun v => v * v)).sum / (x.length : ℚ) + RMS_EPS) ∧
    ((∀ j, j < x.length → x.getD j 0 = 0) → (rms_norm sqrt x w).getD i 0 = 0) := by
  have hval : (rms_norm sqrt x w).getD i 0 =
      w.getD i 0 *
        ((1 / sqrt ((x.map (fun v => v * v)).sum / (x.length : ℚ) + RMS_EPS)) *
          x.getD i 0) := by
    unfold rms_norm
    exact getD_range_map _ _ _ _ hi
  constructor
  · rw [hval]
    ring
  · intro hz
    rw [hval, hz i hi]
    ring

/-- Witness for C4: the theorem applied at concrete vectors with a concrete
interpretation of the square root. -/
theorem rms_norm_reference_witness :
    (([(1 : ℚ), 2] : List ℚ) ≠ [] ∧
      ([(3 : ℚ), 4] : List ℚ).length = ([(1 : ℚ), 2] : List ℚ).length ∧
      0 < ([(1 : ℚ), 2] : List ℚ).length) ∧
    ((rms_norm (fun _ => 5) [1, 2] [3, 4]).getD 0 0 =
        ([(3 : ℚ), 4] : List ℚ).getD 0 0 * ([(1 : ℚ), 2] : List ℚ).getD 0 0 /
          (fun _ => (5 : ℚ))
            ((([(1 : ℚ), 2] : List ℚ).map (fun v => v * v)).sum /
              (([(1 : ℚ), 2] : List ℚ).length : ℚ) + RMS_EPS) ∧
      ((∀ j, j < ([(1 : ℚ), 2] : List ℚ).length → ([(1 : ℚ), 2] : List ℚ).getD j 0 = 0) →
        (rms_norm (fun _ => 5) [1, 2] [3, 4]).getD 0 0 = 0)) :=
  ⟨⟨by decide, by decide, by decide⟩,
    rms_norm_reference (fun _ => 5) [1, 2] [3, 4] (by decide) (by decide) 0 (by decide)⟩

set_option maxRecDepth 4000 in
/-- C1 counterexample: a byte stream whose seven leading integers violate
the invariant `n_heads % n_kv_heads == 0` (here `3 % 2 = 1`) for which
`load_model` nevertheless returns a loaded model, not an invalid-model
error: the loader performs no validation of the header values. -/
theorem load_model_violating_header_loads :
    (load_model (headerBytesC ++ List.replicate 204 0)).map Prod.fst = .ok cfgC ∧
    ¬ cfgC.n_heads % cfgC.n_kv_heads = 0 :=
  ⟨by rfl, by decide⟩

/-- C1 amended: `load_model` performs no validation of the header values:
whenever the header parses (with a positive head count, without which the
Rust code divides by zero) and the stream holds the full layout the header
implies, loading succeeds regardless of the invariants
`n_heads % n_kv_heads == 0` and `dim % n_heads == 0`; a load-time error
arises only from missing data. -/
theorem load_model_no_header_validation (s : List Nat) (cfg : LlamaConfig)
    (rest : List Nat) (hp : parseHeader s = .ok (cfg, rest))
    (_hheads : 0 < cfg.n_heads)
    (hlong : 4 * requiredFloats cfg ≤ rest.length) :
    (load_model s).isOk = true := by
  unfold load_model
  rw [hp, except_bind_ok]
  dsimp only
  obtain ⟨w, r, hw⟩ := load_ok rest cfg hlong
  rw [hw, except_bind_ok]
  rfl

set_option maxRecDepth 4000 in
/-- Witness for the amended C1: the violating stream of the counterexample
satisfies the hypotheses and loads successfully. -/
theorem load_model_no_header_validation_witness :
    (parseHeader (headerBytesC ++ List.replicate 204 0) =
        .ok (cfgC, List.replicate 204 0) ∧
      0 < cfgC.n_heads ∧
      4 * requiredFloats cfgC ≤ (List.replicate (204 : Nat) 0).length) ∧
    (load_model (headerBytesC ++ List.replicate 204 0)).isOk = true :=
  ⟨⟨by rfl, by decide, by decide⟩,
    load_model_no_header_validation _ cfgC _ (by rfl) (by decide) (by decide)⟩

/-- C2: a stream that is shorter than the layout its header demands
(truncated mid weight-array) makes `load_model` return an explicit IO
error: no silent zero-fill of the missing floats, no out-of-bounds read.
The positive-head-count hypothesis scopes the statement to headers whose
layout the Rust code can derive at all (`kv_dim` divides by `n_heads`). -/
theorem load_model_truncated_errors (s : List Nat) (cfg : LlamaConfig)
    (rest : List Nat) (hp : parseHeader s = .ok (cfg, rest))
    (_hheads : 0 < cfg.n_heads)
    (hshort : rest.length < 4 * requiredFloats cfg) :
    load_model s = .error LlamaError.Io := by
  unfold load_model
  rw [hp, except_bind_ok]
  dsimp only
  rw [load_err rest cfg hshort]
  rfl

set_option maxRecDepth 4000 in
/-- Witness for C2: the layout of the concrete header demands 204 bytes of
floats, only 40 are present, and loading reports the IO error. -/
theorem load_model_truncated_errors_witness :
    (parseHeader (headerBytesC ++ List.replicate 40 0) =
        .ok (cfgC, List.replicate 40 0) ∧
      0 < cfgC.n_heads ∧
      (List.replicate (40 : Nat) 0).length < 4 * requiredFloats cfgC) ∧
    load_model (headerBytesC ++ List.replicate 40 0) = .error LlamaError.Io :=
  ⟨⟨by rfl, by decide, by decide⟩,
    load_model_truncated_errors _ cfgC _ (by rfl) (by decide) (by decide)⟩

/-- C9: `forward` performs no bounds check of its own on the token id: with
`embed_tokens` of length `vocab_size * dim` (and a positive `dim`), the
embedding slice `embed_tokens[token*dim .. token*dim+dim]` stays inside the
matrix (the Rust slice panic branch, modelled as `none`, is unreachable)
exactly when `token < vocab_size`. -/
theorem forward_embedding_bounds (ops : RealOps) (token pos : Nat)
    (config : LlamaConfig) (st : LlamaState) (weights : LlamaWeights ℚ)
    (hlen : weights.embed_tokens.length = asUsize config.vocab_size * asUsize config.dim)
    (hdim : 0 < asUsize config.dim) :
    (forward ops token pos config st weights).isSome = true ↔
      token < asUsize config.vocab_size := by
  unfold forward
  by_cases hcond : token * asUsize config.dim + asUsize config.dim ≤ weights.embed_tokens.length
  · rw [if_pos hcond]
    simp only [Option.isSome_some, true_iff]
    rw [hlen] at hcond
    have h1 : (token + 1) * asUsize config.dim ≤
        asUsize config.vocab_size * asUsize config.dim := by
      calc (token + 1) * asUsize config.dim
          = token * asUsize config.dim + asUsize config.dim := by ring
        _ ≤ _ := hcond
    have := Nat.le_of_mul_le_mul_right h1 hdim
    omega
  · rw [if_neg hcond]
    simp only [Option.isSome_none, Bool.false_eq_true, false_iff, not_lt]
    rw [hlen] at hcond
    by_contra hlt
    push_neg at hlt
    have h1 : (token + 1) * asUsize config.dim ≤
        asUsize config.vocab_size * asUsize config.dim :=
      Nat.mul_le_mul_right _ hlt
    have h2 : token * asUsize config.dim + asUsize config.dim ≤
        asUsize config.vocab_size * asUsize config.dim := by
      calc token * asUsize config.dim + asUsize config.dim
          = (token + 1) * asUsize config.dim := by ring
        _ ≤ _ := h1
    omega

/-- Witness for C9: a two-token, one-dimensional model where token 1 is in
bounds. -/
theorem forward_embedding_bounds_witness :
    ((⟨[0, 0], [], []⟩ : LlamaWeights ℚ).embed_tokens.length =
        asUsize (⟨1, 1, 1, 1, 1, 2, 1⟩ : LlamaConfig).vocab_size *
          asUsize (⟨1, 1, 1, 1, 1, 2, 1⟩ : LlamaConfig).dim ∧
      0 < asUsize (⟨1, 1, 1, 1, 1, 2, 1⟩ : LlamaConfig).dim) ∧
    ((forward opsZ 1 0 ⟨1, 1, 1, 1, 1, 2, 1⟩ (LlamaState.new ⟨1, 1, 1, 1, 1, 2, 1⟩)
        ⟨[0, 0], [], []⟩).isSome = true ↔
      1 < asUsize (⟨1, 1, 1, 1, 1, 2, 1⟩ : LlamaConfig).vocab_size) :=
  ⟨⟨by decide, by decide⟩,
    forward_embedding_bounds opsZ 1 0 ⟨1, 1, 1, 1, 1, 2, 1⟩
      (LlamaState.new ⟨1, 1, 1, 1, 1, 2, 1⟩) ⟨[0, 0], [], []⟩ (by decide) (by decide)⟩

/-- C10: `bpe_encode` looks up the dummy leading space token only for
non-empty text: empty text with `add_bos = true`, `add_eos = false` yields
exactly `[1]` and never errors, and the `Tokenizer` error for a missing
single-space vocabulary entry is raised precisely when the text is
non-empty and the space string is absent from the vocabulary map. -/
theorem bpe_encode_empty_and_space (vocab : List String) (scores : List ℚ)
    (vocab_map : String → Option Int) (text : List Char) (bos eos : Bool) :
    bpe_encode [] vocab scores vocab_map true false = .ok [1] ∧
    (bpe_encode text vocab scores vocab_map bos eos =
        .error (LlamaError.Tokenizer dummyMsg) ↔
      text ≠ [] ∧ vocab_map spaceStr = none) := by
  constructor
  · have h1 : bestMerge vocab scores vocab_map [1] = none := by
      unfold bestMerge
      simp
    unfold bpe_encode
    simp only [except_bind_ok]
    simp only [if_true, List.append_nil, List.flatMap_nil, List.nil_append, reduceIte]
    rw [mergeLoop.eq_def]
    split
    · rfl
    · rename_i b hb
      rw [h1] at hb
      cases hb
  · cases text with
    | nil =>
      simp [bpe_encode, except_bind_ok]
    | cons c cs =>
      cases hm : vocab_map spaceStr with
      | none =>
        simp [bpe_encode, hm, except_bind_err]
      | some id =>
        simp [bpe_encode, hm, except_bind_ok]

/-- C6: grouped-query mapping: with `n_heads = 8` and `n_kv_heads = 2` the
derived `group_size` is 4, query head `h` owns key/value head
`h / group_size` (0 for heads 0-3, 1 for heads 4-7), and the per-head
attention output depends on the caches only through that key/value head's
slices at positions `0..pos`. -/
theorem grouped_query_head_mapping (cfg : LlamaConfig)
    (h8 : cfg.n_heads = 8) (h2 : cfg.n_kv_heads = 2)
    (exp sqrt : ℚ → ℚ) (head_size kv_dim pos h : Nat) (hh : h < 8)
    (q kc1 vc1 kc2 vc2 : List ℚ)
    (hk : ∀ t, t ≤ pos → ∀ i, i < head_size →
      kc1.getD (t * kv_dim + (if h < 4 then 0 else 1) * head_size + i) 0 =
        kc2.getD (t * kv_dim + (if h < 4 then 0 else 1) * head_size + i) 0)
    (hv : ∀ t, t ≤ pos → ∀ i, i < head_size →
      vc1.getD (t * kv_dim + (if h < 4 then 0 else 1) * head_size + i) 0 =
        vc2.getD (t * kv_dim + (if h < 4 then 0 else 1) * head_size + i) 0) :
    cfg.group_size = 4 ∧
    kvHead cfg.group_size h = (if h < 4 then 0 else 1) ∧
    headOut exp sqrt head_size kv_dim cfg.group_size pos h q kc1 vc1 =
      headOut exp sqrt head_size kv_dim cfg.group_size pos h q kc2 vc2 := by
  have hg : cfg.group_size = 4 := by
    unfold LlamaConfig.group_size
    rw [h8, h2]
    rfl
  have hkv : kvHead cfg.group_size h = (if h < 4 then 0 else 1) := by
    rw [hg]
    unfold kvHead
    split <;> omega
  refine ⟨hg, hkv, ?_⟩
  apply headOut_congr
  · intro t ht i hi
    rw [hkv]
    exact hk t ht i hi
  · intro t ht i hi
    rw [hkv]
    exact hv t ht i hi

/-- Witness for C6: query head 5 with two caches that agree only on
key/value head 1's slice. -/
theorem grouped_query_head_mapping_witness :
    ((⟨8, 1, 1, 8, 2, 8, 1⟩ : LlamaConfig).n_heads = 8 ∧
      (⟨8, 1, 1, 8, 2, 8, 1⟩ : LlamaConfig).n_kv_heads = 2 ∧
      (5 : Nat) < 8 ∧
      (∀ t, t ≤ 0 → ∀ i, i < 1 →
        ([(7 : ℚ), 3] : List ℚ).getD (t * 2 + (if 5 < 4 then 0 else 1) * 1 + i) 0 =
          ([(9 : ℚ), 3] : List ℚ).getD (t * 2 + (if 5 < 4 then 0 else 1) * 1 + i) 0) ∧
      (∀ t, t ≤ 0 → ∀ i, i < 1 →
        ([(11 : ℚ), 4] : List ℚ).getD (t * 2 + (if 5 < 4 then 0 else 1) * 1 + i) 0 =
          ([(13 : ℚ), 4] : List ℚ).getD (t * 2 + (if 5 < 4 then 0 else 1) * 1 + i) 0)) ∧
    ((⟨8, 1, 1, 8, 2, 8, 1⟩ : LlamaConfig).group_size = 4 ∧
      kvHead (⟨8, 1, 1, 8, 2, 8, 1⟩ : LlamaConfig).group_size 5 = (if 5 < 4 then 0 else 1) ∧
      headOut (fun v => v) (fun v => v) 1 2
          (⟨8, 1, 1, 8, 2, 8, 1⟩ : LlamaConfig).group_size 0 5 [1, 2, 3, 4, 5, 6]
          [7, 3] [11, 4] =
        headOut (fun v => v) (fun v => v) 1 2
          (⟨8, 1, 1, 8, 2, 8, 1⟩ : LlamaConfig).group_size 0 5 [1, 2, 3, 4, 5, 6]
          [9, 3] [13, 4]) :=
  ⟨⟨by decide, by decide, by decide, by decide, by decide⟩,
    grouped_query_head_mapping ⟨8, 1, 1, 8, 2, 8, 1⟩ rfl rfl (fun v => v) (fun v => v)
      1 2 0 5 (by decide) [1, 2, 3, 4, 5, 6] [7, 3] [11, 4] [9, 3] [13, 4]
      (by decide) (by decide)⟩

/-- C7: causality: the attention step at position `pos` of two states with
the same hidden state whose layer caches agree at positions `0..pos`
(indices below `(pos+1)*kv_dim`) but may differ at positions beyond `pos`
produces identical attention outputs (both the concatenated head outputs
and the post-residual hidden state).  The head-shape hypothesis keeps each
head's cache slice inside one cached position's row. -/
theorem attention_causal (ops : RealOps) (layer_idx pos : Nat) (config : LlamaConfig)
    (st1 st2 : LlamaState) (lw : LlamaLayerWeights ℚ)
    (hx : st1.x = st2.x)
    (hkl1 : (pos + 1) * config.kv_dim ≤ (st1.key_cache.getD layer_idx []).length)
    (hkl2 : (pos + 1) * config.kv_dim ≤ (st2.key_cache.getD layer_idx []).length)
    (hvl1 : (pos + 1) * config.kv_dim ≤ (st1.value_cache.getD layer_idx []).length)
    (hvl2 : (pos + 1) * config.kv_dim ≤ (st2.value_cache.getD layer_idx []).length)
    (hkagree : ∀ i, i < (pos + 1) * config.kv_dim →
      (st1.key_cache.getD layer_idx []).getD i 0 =
        (st2.key_cache.getD layer_idx []).getD i 0)
    (hvagree : ∀ i, i < (pos + 1) * config.kv_dim →
      (st1.value_cache.getD layer_idx []).getD i 0 =
        (st2.value_cache.getD layer_idx []).getD i 0)
    (hrow : ∀ h, h < asUsize config.n_heads →
      (kvHead config.group_size h + 1) * config.head_size ≤ config.kv_dim) :
    (attention ops layer_idx pos config st1 lw).x =
      (attention ops layer_idx pos config st2 lw).x ∧
    (attention ops layer_idx pos config st1 lw).xb =
      (attention ops layer_idx pos config st2 lw).xb := by
  unfold attention
  dsimp only
  rw [hx]
  constructor
  · congr 1
    congr 1
    congr 1
    apply List.map_congr_left
    intro h hh
    apply headOut_congr
    · apply cache_write_agree
      · rw [apply_rotary_emb_length, matmul_length]
      · exact hkl1
      · exact hkl2
      · exact hkagree
      · exact hrow h (List.mem_range.mp hh)
    · apply cache_write_agree
      · rw [matmul_length]
      · exact hvl1
      · exact hvl2
      · exact hvagree
      · exact hrow h (List.mem_range.mp hh)
  · congr 1
    apply List.map_congr_left
    intro h hh
    apply headOut_congr
    · apply cache_write_agree
      · rw [apply_rotary_emb_length, matmul_length]
      · exact hkl1
      · exact hkl2
      · exact hkagree
      · exact hrow h (List.mem_range.mp hh)
    · apply cache_write_agree
      · rw [matmul_length]
      · exact hvl1
      · exact hvl2
      · exact hvagree
      · exact hrow h (List.mem_range.mp hh)

/-- Witness for C7: two concrete one-head states agreeing at cache position
0 and differing at position 1 yield the same attention output at
position 0. -/
theorem attention_causal_witness :
    (c7st1.x = c7st2.x ∧
      (0 + 1) * c7cfg.kv_dim ≤ (c7st1.key_cache.getD 0 []).length ∧
      (0 + 1) * c7cfg.kv_dim ≤ (c7st2.key_cache.getD 0 []).length ∧
      (0 + 1) * c7cfg.kv_dim ≤ (c7st1.value_cache.getD 0 []).length ∧
      (0 + 1) * c7cfg.kv_dim ≤ (c7st2.value_cache.getD 0 []).length ∧
      (∀ i, i < (0 + 1) * c7cfg.kv_dim →
        (c7st1.key_cache.getD 0 []).getD i 0 = (c7st2.key_cache.getD 0 []).getD i 0) ∧
      (∀ i, i < (0 + 1) * c7cfg.kv_dim →
        (c7st1.value_cache.getD 0 []).getD i 0 = (c7st2.value_cache.getD 0 []).getD i 0) ∧
      (∀ h, h < asUsize c7cfg.n_heads →
        (kvHead c7cfg.group_size h + 1) * c7cfg.head_size ≤ c7cfg.kv_dim)) ∧
    ((attention opsZ 0 0 c7cfg c7st1 c7lw).x = (attention opsZ 0 0 c7cfg c7st2 c7lw).x ∧
      (attention opsZ 0 0 c7cfg c7st1 c7lw).xb = (attention opsZ 0 0 c7cfg c7st2 c7lw).xb) :=
  ⟨⟨by decide, by decide, by decide, by decide, by decide, by decide, by decide, by decide⟩,
    attention_causal opsZ 0 0 c7cfg c7st1 c7st2 c7lw (by decide) (by decide) (by decide)
      (by decide) (by decide) (by decide) (by decide) (by decide)⟩

/-- C8: frame effect of a forward call at position `pos`: in every layer
`l` the call overwrites exactly the `kv_dim` contiguous entries at offset
`pos * kv_dim` of that layer's key and value caches (with vectors of
length `kv_dim`), and every other position's entries in every layer are
unchanged. -/
theorem forward_cache_frame (ops : RealOps) (token pos : Nat) (config : LlamaConfig)
    (st st' : LlamaState) (weights : LlamaWeights ℚ)
    (hres : forward ops token pos config st weights = some st')
    (hkc : weights.layers.length ≤ st.key_cache.length)
    (hvc : weights.layers.length ≤ st.value_cache.length) :
    ∀ l, l < weights.layers.length →
      ∃ kv vv, kv.length = config.kv_dim ∧ vv.length = config.kv_dim ∧
        st'.key_cache.getD l [] =
          setSlice (st.key_cache.getD l []) (pos * config.kv_dim) kv ∧
        st'.value_cache.getD l [] =
          setSlice (st.value_cache.getD l []) (pos * config.kv_dim) vv ∧
        (∀ p' j, p' ≠ pos → j < config.kv_dim →
          (pos + 1) * config.kv_dim ≤ (st.key_cache.getD l []).length →
          (st'.key_cache.getD l []).getD (p' * config.kv_dim + j) 0 =
            (st.key_cache.getD l []).getD (p' * config.kv_dim + j) 0) ∧
        (∀ p' j, p' ≠ pos → j < config.kv_dim →
          (pos + 1) * config.kv_dim ≤ (st.value_cache.getD l []).length →
          (st'.value_cache.getD l []).getD (p' * config.kv_dim + j) 0 =
            (st.value_cache.getD l []).getD (p' * config.kv_dim + j) 0) := by
  unfold forward at hres
  dsimp only at hres
  by_cases hcond : token * asUsize config.dim + asUsize config.dim ≤
    weights.embed_tokens.length
  · rw [if_pos hcond] at hres
    have hst' := Option.some.inj hres
    subst hst'
    obtain ⟨hlen, hout, hin⟩ := runLayers_cache_frame ops config pos weights.layers 0
      { st with
        x := (seg weights.embed_tokens (token * asUsize config.dim) (asUsize config.dim)) }
      (by show 0 + weights.layers.length ≤ st.key_cache.length; omega)
      (by show 0 + weights.layers.length ≤ st.value_cache.length; omega)
    intro l hl
    obtain ⟨kv, vv, h1, h2, h3, h4⟩ := hin l (Nat.zero_le l) (by omega)
    dsimp only at h3 h4
    refine ⟨kv, vv, h1, h2, h3, h4, ?_, ?_⟩
    · intro p' j hne hj hlenrow
      rw [h3]
      rcases Nat.lt_or_ge p' pos with hplt | hpge
      · have ha : (p' + 1) * config.kv_dim ≤ pos * config.kv_dim :=
          Nat.mul_le_mul_right _ (by omega)
        have hb : (p' + 1) * config.kv_dim = p' * config.kv_dim + config.kv_dim := by ring
        have hc : (pos + 1) * config.kv_dim = pos * config.kv_dim + config.kv_dim := by
          ring
        exact setSlice_getD_lt _ _ _ _ _ (by omega) (by omega)
      · have ha : (pos + 1) * config.kv_dim ≤ p' * config.kv_dim :=
          Nat.mul_le_mul_right _ (by omega)
        have hb : (pos + 1) * config.kv_dim = pos * config.kv_dim + config.kv_dim := by
          ring
        exact setSlice_getD_ge _ _ _ _ _ (by omega) (by omega)
    · intro p' j hne hj hlenrow
      rw [h4]
      rcases Nat.lt_or_ge p' pos with hplt | hpge
      · have ha : (p' + 1) * config.kv_dim ≤ pos * config.kv_dim :=
          Nat.mul_le_mul_right _ (by omega)
        have hb : (p' + 1) * config.kv_dim = p' * config.kv_dim + config.kv_dim := by ring
        have hc : (pos + 1) * config.kv_dim = pos * config.kv_dim + config.kv_dim := by
          ring
        exact setSlice_getD_lt _ _ _ _ _ (by omega) (by omega)
      · have ha : (pos + 1) * config.kv_dim ≤ p' * config.kv_dim :=
          Nat.mul_le_mul_right _ (by omega)
        have hb : (pos + 1) * config.kv_dim = pos * config.kv_dim + config.kv_dim := by
          ring
        exact setSlice_getD_ge _ _ _ _ _ (by omega) (by omega)
  · rw [if_neg hcond] at hres
    cases hres

/-- Witness for C8: the one-layer model writes exactly cache slot 0 of
layer 0 at position 0. -/
theorem forward_cache_frame_witness :
    (forward opsZ 0 0 c8cfg c8st c8w = some c8res ∧
      c8w.layers.length ≤ c8st.key_cache.length ∧
      c8w.layers.length ≤ c8st.value_cache.length) ∧
    (∀ l, l < c8w.layers.length →
      ∃ kv vv, kv.length = c8cfg.kv_dim ∧ vv.length = c8cfg.kv_dim ∧
        c8res.key_cache.getD l [] =
          setSlice (c8st.key_cache.getD l []) (0 * c8cfg.kv_dim) kv ∧
        c8res.value_cache.getD l [] =
          setSlice (c8st.value_cache.getD l []) (0 * c8cfg.kv_dim) vv ∧
        (∀ p' j, p' ≠ 0 → j < c8cfg.kv_dim →
          (0 + 1) * c8cfg.kv_dim ≤ (c8st.key_cache.getD l []).length →
          (c8res.key_cache.getD l []).getD (p' * c8cfg.kv_dim + j) 0 =
            (c8st.key_cache.getD l []).getD (p' * c8cfg.kv_dim + j) 0) ∧
        (∀ p' j, p' ≠ 0 → j < c8cfg.kv_dim →
          (0 + 1) * c8cfg.kv_dim ≤ (c8st.value_cache.getD l []).length →
          (c8res.value_cache.getD l []).getD (p' * c8cfg.kv_dim + j) 0 =
            (c8st.value_cache.getD l []).getD (p' * c8cfg.kv_dim + j) 0)) :=
  ⟨⟨by rfl, by decide, by decide⟩,
    forward_cache_frame opsZ 0 0 c8cfg c8st c8res c8w (by rfl) (by decide) (by decide)⟩

end Llama
